import Mathlib

/-!
Shallow embedding of the HTML tokenizer of `src/html_tokenizer.rs`
(repository mochi_browser), together with theorems settling the
frozen claims about it.

Modelling choices, faithful to the Rust source:
* The input `&str` is modelled as `List Char` (Rust iterates it with
  `chars()`, i.e. over Unicode scalar values).  `input.len()` in Rust is
  the UTF-8 *byte* length, modelled by `byteLen` (the sum of the UTF-8
  sizes of the characters).  This distinction is kept exactly because the
  source mixes the two: `peek` indexes with `chars().nth(position)`
  (a character index) while `advance`/`is_eof` compare `position` with
  `input.len()` (bytes).
* Mutation of `self.position` becomes explicit state passing of the
  `HtmlTokenizer` structure.
* Every Rust loop (`while`/`loop`) becomes a fuel-indexed structural
  recursion whose body mirrors the loop body; the public wrapper
  instantiates the fuel with `input.length + 1 - position`, which is
  enough for every loop that only iterates while `peek`/`advance`
  yields a character (each such iteration strictly increases
  `position`, which `peek` bounds by `input.length`).
  The recursion `next_token -> parse_text -> next_token` does *not*
  terminate on all inputs (see the C1 theorem), so `next_tokenF` keeps
  its fuel in the interface and returns `none` when the fuel runs out;
  `next_tokenF fuel st = none` for every `fuel` models divergence.
* Rust `Option<Result<A, E>>` becomes `Option (Except E A)`; a method
  that mutates and returns a value becomes a function returning a pair.
-/

deriving instance DecidableEq for Except

namespace MochiBrowser

/-- Source `HtmlToken` of the source, with `String` modelled as `List Char`. -/
inductive HtmlToken where
  | Doctype (content : List Char)
  | StartTag (name : List Char) (attributes : List (List Char × List Char))
      (self_closing : Bool)
  | EndTag (name : List Char)
  | Text (content : List Char)
  | Comment (content : List Char)
deriving DecidableEq

/-- Source `TokenizeError` of the source. -/
inductive TokenizeError where
  | UnexpectedEOF
  | InvalidTag
  | InvalidAttribute
  | MalformedComment
deriving DecidableEq

/-- Source `HtmlTokenizer` of the source: borrowed input plus scan position. -/
structure HtmlTokenizer where
  input : List Char
  position : Nat
deriving DecidableEq

/-- Rust `str::len()`: the UTF-8 byte length of the input. -/
def byteLen (l : List Char) : Nat :=
  l.foldr (fun c n => c.utf8Size + n) 0

/-- Rust `char::is_whitespace()`: the Unicode `White_Space` property. -/
def rustIsWhitespace (c : Char) : Bool :=
  let n := c.toNat
  n == 0x9 || n == 0xA || n == 0xB || n == 0xC || n == 0xD || n == 0x20 ||
  n == 0x85 || n == 0xA0 || n == 0x1680 ||
  (decide (0x2000 ≤ n) && decide (n ≤ 0x200A)) ||
  n == 0x2028 || n == 0x2029 || n == 0x202F || n == 0x205F || n == 0x3000

/-- The double-quote character. -/
def dq : Char := Char.ofNat 34

/-- The single-quote character. -/
def sq : Char := Char.ofNat 39

/-- U+00E9, a one-character, two-byte input used as a counterexample. -/
def eAcute : Char := Char.ofNat 233

/-- U+00A0 no-break space: whitespace for Rust, two UTF-8 bytes. -/
def nbsp : Char := Char.ofNat 160

namespace HtmlTokenizer

/-- Source `HtmlTokenizer::new`. -/
def new (input : List Char) : HtmlTokenizer := ⟨input, 0⟩

/-- Source `peek`: `self.input.chars().nth(self.position + offset)`. -/
def peek (t : HtmlTokenizer) (offset : Nat) : Option Char :=
  t.input.get? (t.position + offset)

/-- Source `advance`: returns `chars().nth(position)` and increments `position`
whenever `position < input.len()` (the *byte* length, as in the source). -/
def advance (t : HtmlTokenizer) : Option Char × HtmlTokenizer :=
  if t.position < byteLen t.input then
    (t.input.get? t.position, ⟨t.input, t.position + 1⟩)
  else
    (none, t)

/-- Source `advance_n`: `n` calls to `advance`, stopping early when it yields
`None` (the state change of that last `advance` is kept, as in Rust). -/
def advance_n (t : HtmlTokenizer) (n : Nat) : HtmlTokenizer :=
  match n with
  | 0 => t
  | m + 1 =>
    match advance t with
    | (some _, t') => advance_n t' m
    | (none, t') => t'

/-- Source `is_eof`: `self.position >= self.input.len()` (byte length). -/
def is_eof (t : HtmlTokenizer) : Bool :=
  decide (byteLen t.input ≤ t.position)

/-- Loop body of `skip_whitespace`, fuel-indexed. -/
def skip_whitespaceF : Nat → HtmlTokenizer → HtmlTokenizer
  | 0, t => t
  | fuel + 1, t =>
    match peek t 0 with
    | some c =>
      if rustIsWhitespace c then skip_whitespaceF fuel (advance t).2 else t
    | none => t

/-- Source `skip_whitespace`. -/
def skip_whitespace (t : HtmlTokenizer) : HtmlTokenizer :=
  skip_whitespaceF (t.input.length + 1 - t.position) t

/-- Empty-name test of `parse_tag_name` / `parse_attribute_name`:
`if name.is_empty() { None } else { Some(name) }`. -/
def finalizeName (acc : List Char) : Option (List Char) :=
  if acc = [] then none else some acc

/-- Loop body of `parse_tag_name`, fuel-indexed. -/
def parse_tag_nameF : Nat → HtmlTokenizer → List Char →
    Option (List Char) × HtmlTokenizer
  | 0, t, acc => (finalizeName acc, t)
  | fuel + 1, t, acc =>
    match peek t 0 with
    | some c =>
      if rustIsWhitespace c ∨ c = '>' ∨ c = '/' then (finalizeName acc, t)
      else
        match advance t with
        | (some ch, t') => parse_tag_nameF fuel t' (acc ++ [ch])
        | (none, t') => (finalizeName acc, t')
    | none => (finalizeName acc, t)

/-- Source `parse_tag_name`. -/
def parse_tag_name (t : HtmlTokenizer) : Option (List Char) × HtmlTokenizer :=
  parse_tag_nameF (t.input.length + 1 - t.position) t []

/-- Loop body of `parse_doctype`, fuel-indexed; `acc` is the `doctype`
accumulator string. -/
def parse_doctypeF : Nat → HtmlTokenizer → List Char →
    Except TokenizeError HtmlToken × HtmlTokenizer
  | 0, t, _ => (.error .UnexpectedEOF, t)
  | fuel + 1, t, acc =>
    match peek t 0 with
    | some c =>
      if c = '>' then (.ok (.Doctype acc), (advance t).2)
      else
        match advance t with
        | (some ch, t') => parse_doctypeF fuel t' (acc ++ [ch])
        | (none, t') => (.error .UnexpectedEOF, t')
    | none => (.error .UnexpectedEOF, t)

/-- Source `parse_doctype`. -/
def parse_doctype (t : HtmlTokenizer) :
    Except TokenizeError HtmlToken × HtmlTokenizer :=
  parse_doctypeF (t.input.length + 1 - t.position) t []

/-- Loop body of `parse_comment`, fuel-indexed; `acc` is the `comment`
accumulator, `dash` the `prev_dash_count`. -/
def parse_commentF : Nat → HtmlTokenizer → List Char → Nat →
    Except TokenizeError HtmlToken × HtmlTokenizer
  | 0, t, _, _ => (.error .MalformedComment, t)
  | fuel + 1, t, acc, dash =>
    match advance t with
    | (some c, t') =>
      if 2 ≤ dash ∧ c = '>' then
        (.ok (.Comment (if ['-', '-'].isSuffixOf acc then
            acc.take (acc.length - 2) else acc)), t')
      else
        parse_commentF fuel t' (acc ++ [c]) (if c = '-' then dash + 1 else 0)
    | (none, t') => (.error .MalformedComment, t')

/-- Source `parse_comment`. -/
def parse_comment (t : HtmlTokenizer) :
    Except TokenizeError HtmlToken × HtmlTokenizer :=
  parse_commentF (t.input.length + 1 - t.position) t [] 0

/-- Source `parse_special_tag`. -/
def parse_special_tag (t : HtmlTokenizer) :
    Except TokenizeError HtmlToken × HtmlTokenizer :=
  if peek t 0 = some '-' then
    if peek t 1 = some '-' then parse_comment (advance_n t 2)
    else (.error .MalformedComment, t)
  else parse_doctype t

/-- Delimiter stop-set of `parse_attribute_name`. -/
def isAttrNameDelim (c : Char) : Bool :=
  rustIsWhitespace c || c == '=' || c == '>' || c == '/'

/-- Loop body of `parse_attribute_name`, fuel-indexed. -/
def parse_attribute_nameF : Nat → HtmlTokenizer → List Char →
    Option (List Char) × HtmlTokenizer
  | 0, t, acc => (finalizeName acc, t)
  | fuel + 1, t, acc =>
    match peek t 0 with
    | some c =>
      if isAttrNameDelim c then (finalizeName acc, t)
      else
        match advance t with
        | (some ch, t') => parse_attribute_nameF fuel t' (acc ++ [ch])
        | (none, t') => (finalizeName acc, t')
    | none => (finalizeName acc, t)

/-- Source `parse_attribute_name`. -/
def parse_attribute_name (t : HtmlTokenizer) :
    Option (List Char) × HtmlTokenizer :=
  parse_attribute_nameF (t.input.length + 1 - t.position) t []

/-- Quoted-value loop of `parse_attribute_value`, fuel-indexed:
accumulate until the matching quote `q`. -/
def attrQuotedF : Nat → HtmlTokenizer → Char → List Char →
    Except TokenizeError (List Char) × HtmlTokenizer
  | 0, t, _, _ => (.error .InvalidAttribute, t)
  | fuel + 1, t, q, acc =>
    match advance t with
    | (some c, t') =>
      if c = q then (.ok acc, t') else attrQuotedF fuel t' q (acc ++ [c])
    | (none, t') => (.error .InvalidAttribute, t')

/-- Delimiter stop-set of the unquoted branch of `parse_attribute_value`. -/
def isUnquotedDelim (c : Char) : Bool :=
  rustIsWhitespace c || c == '>' || c == '/'

/-- Unquoted-value loop of `parse_attribute_value`, fuel-indexed. -/
def attrUnquotedF : Nat → HtmlTokenizer → List Char →
    Except TokenizeError (List Char) × HtmlTokenizer
  | 0, t, acc => (.ok acc, t)
  | fuel + 1, t, acc =>
    match peek t 0 with
    | some c =>
      if isUnquotedDelim c then (.ok acc, t)
      else
        match advance t with
        | (some ch, t') => attrUnquotedF fuel t' (acc ++ [ch])
        | (none, t') => (.error .InvalidAttribute, t')
    | none => (.ok acc, t)

/-- Source `parse_attribute_value`. -/
def parse_attribute_value (t : HtmlTokenizer) :
    Except TokenizeError (List Char) × HtmlTokenizer :=
  match peek t 0 with
  | some c =>
    if c = dq ∨ c = sq then
      match advance t with
      | (some q, t') => attrQuotedF (t'.input.length + 1 - t'.position) t' q []
      | (none, t') => (.error .InvalidAttribute, t')
    else attrUnquotedF (t.input.length + 1 - t.position) t []
  | none => attrUnquotedF (t.input.length + 1 - t.position) t []

/-- Source `parse_attribute`. -/
def parse_attribute (t : HtmlTokenizer) :
    Option (Except TokenizeError (List Char × List Char)) × HtmlTokenizer :=
  match parse_attribute_name t with
  | (none, t1) => (none, t1)
  | (some name, t1) =>
    let t2 := skip_whitespace t1
    if peek t2 0 = some '=' then
      let t3 := skip_whitespace (advance t2).2
      match parse_attribute_value t3 with
      | (.ok value, t4) => (some (.ok (name, value)), t4)
      | (.error e, t4) => (some (.error e), t4)
    else (some (.ok (name, [])), t2)

/-- Loop body of `parse_attributes`, fuel-indexed; `acc` is the
`attributes` vector. -/
def parse_attributesF : Nat → HtmlTokenizer → List (List Char × List Char) →
    Except TokenizeError (List (List Char × List Char)) × HtmlTokenizer
  | 0, t, acc => (.ok acc, t)
  | fuel + 1, t, acc =>
    let t1 := skip_whitespace t
    if peek t1 0 = some '>' then (.ok acc, t1)
    else if peek t1 0 = some '/' then (.ok acc, t1)
    else
      match parse_attribute t1 with
      | (some (.ok a), t2) => parse_attributesF fuel t2 (acc ++ [a])
      | (some (.error e), t2) => (.error e, t2)
      | (none, t2) => (.ok acc, t2)

/-- Source `parse_attributes`. -/
def parse_attributes (t : HtmlTokenizer) :
    Except TokenizeError (List (List Char × List Char)) × HtmlTokenizer :=
  parse_attributesF (t.input.length + 1 - t.position) t []

/-- Source `parse_start_tag`. -/
def parse_start_tag (t : HtmlTokenizer) :
    Except TokenizeError HtmlToken × HtmlTokenizer :=
  match parse_tag_name t with
  | (none, t1) => (.error .InvalidTag, t1)
  | (some name, t1) =>
    let t2 := skip_whitespace t1
    match parse_attributes t2 with
    | (.error e, t3) => (.error e, t3)
    | (.ok attributes, t3) =>
      let t4 := skip_whitespace t3
      if peek t4 0 = some '/' then
        let t5 := (advance t4).2
        if peek t5 0 = some '>' then
          (.ok (.StartTag name attributes true), (advance t5).2)
        else (.error .InvalidTag, t5)
      else if peek t4 0 = some '>' then
        (.ok (.StartTag name attributes false), (advance t4).2)
      else (.error .InvalidTag, t4)

/-- Source `parse_end_tag`. -/
def parse_end_tag (t : HtmlTokenizer) :
    Except TokenizeError HtmlToken × HtmlTokenizer :=
  match parse_tag_name t with
  | (none, t1) => (.error .InvalidTag, t1)
  | (some name, t1) =>
    let t2 := skip_whitespace t1
    if peek t2 0 = some '>' then (.ok (.EndTag name), (advance t2).2)
    else (.error .InvalidTag, t2)

/-- Source `parse_tag`. -/
def parse_tag (t : HtmlTokenizer) :
    Except TokenizeError HtmlToken × HtmlTokenizer :=
  if peek t 0 = some '!' then parse_special_tag (advance t).2
  else if peek t 0 = some '/' then parse_end_tag (advance t).2
  else parse_start_tag t

/-- The accumulation loop of `parse_text`, fuel-indexed. -/
def parse_text_loopF : Nat → HtmlTokenizer → List Char →
    List Char × HtmlTokenizer
  | 0, t, acc => (acc, t)
  | fuel + 1, t, acc =>
    match peek t 0 with
    | some c =>
      if c = '<' then (acc, t)
      else
        match advance t with
        | (some ch, t') => parse_text_loopF fuel t' (acc ++ [ch])
        | (none, t') => (acc, t')
    | none => (acc, t)

/-- The accumulation loop of `parse_text`. -/
def parse_text_loop (t : HtmlTokenizer) : List Char × HtmlTokenizer :=
  parse_text_loopF (t.input.length + 1 - t.position) t []

/-- Source `next_token`, with the `parse_text` tail (text accumulation, then
either emit `Text` or recurse into `next_token`) inlined so that the
mutual recursion `next_token <-> parse_text` becomes a single structural
recursion on `fuel`.  One unit of fuel is consumed exactly at each
re-entry of `next_token` from the empty-text case of `parse_text`;
`none` means the fuel ran out, so `(∀ fuel, next_tokenF fuel t = none)`
states that the call diverges.  `some (none, t')` is Rust's `None`
(end of input); `some (some r, t')` is `Some(r)`. -/
def next_tokenF : Nat → HtmlTokenizer →
    Option (Option (Except TokenizeError HtmlToken) × HtmlTokenizer)
  | 0, _ => none
  | fuel + 1, t =>
    let t1 := skip_whitespace t
    if is_eof t1 then some (none, t1)
    else if peek t1 0 = some '<' then
      let p := parse_tag (advance t1).2
      some (some p.1, p.2)
    else
      let r := parse_text_loop t1
      if r.1 = [] then next_tokenF fuel r.2
      else some (some (.ok (.Text r.1)), r.2)

/-- Source `parse_text` as a separate entry point, matching the source's
function boundary: run the text loop, then emit or recurse. -/
def parse_textF (fuel : Nat) (t : HtmlTokenizer) :
    Option (Option (Except TokenizeError HtmlToken) × HtmlTokenizer) :=
  let r := parse_text_loop t
  if r.1 = [] then next_tokenF fuel r.2
  else some (some (.ok (.Text r.1)), r.2)

end HtmlTokenizer

/-- Source `HtmlTokenizerIter`: the sequence adapter, wrapping a tokenizer. -/
structure HtmlTokenizerIter where
  tokenizer : HtmlTokenizer
deriving DecidableEq

/-- Source `HtmlTokenizer::iter`: a fresh tokenizer over the same input,
starting at position zero. -/
def HtmlTokenizer.iter (t : HtmlTokenizer) : HtmlTokenizerIter :=
  ⟨HtmlTokenizer.new t.input⟩

/-- Source `HtmlTokenizerIter::new`. -/
def HtmlTokenizerIter.new (input : List Char) : HtmlTokenizerIter :=
  ⟨HtmlTokenizer.new input⟩

/-- Collecting the iterator (`Iterator::next` = `next_token`, repeated
until Rust's `None`), fuel-indexed; `none` means some pull diverged or
the fuel ran out before exhaustion. -/
def tokenListF : Nat → HtmlTokenizer →
    Option (List (Except TokenizeError HtmlToken))
  | 0, _ => none
  | fuel + 1, t =>
    match HtmlTokenizer.next_tokenF fuel t with
    | none => none
    | some (none, _) => some []
    | some (some r, t') =>
      match tokenListF fuel t' with
      | none => none
      | some rest => some (r :: rest)

/-- The sequence produced by the adapter. -/
def iterTokenListF (fuel : Nat) (it : HtmlTokenizerIter) :
    Option (List (Except TokenizeError HtmlToken)) :=
  tokenListF fuel it.tokenizer

/-- Spec-side description of comment-body scanning ("accumulate
characters, tracking a running count of consecutive trailing `-`; on
`>` with count ≥ 2 terminate and strip a trailing `--`; exhaustion is
failure", §4.3 of the spec): `none` is the `MalformedComment` case.
Used only to state the refinement in claim C4. -/
def commentScanSpec : List Char → List Char → Nat → Option (List Char)
  | [], _, _ => none
  | c :: rest, acc, dash =>
    if 2 ≤ dash ∧ c = '>' then
      some (if ['-', '-'].isSuffixOf acc then acc.take (acc.length - 2)
        else acc)
    else
      commentScanSpec rest (acc ++ [c]) (if c = '-' then dash + 1 else 0)

/-- Result view of `commentScanSpec` as the tokenizer returns it. -/
def commentResult : Option (List Char) → Except TokenizeError HtmlToken
  | some s => .ok (.Comment s)
  | none => .error .MalformedComment

/-- Concrete input `<div class="foo" id="bar">` (26 characters). -/
def divExample : List Char :=
  "<div class=".toList ++ [dq] ++ "foo".toList ++ [dq] ++
  " id=".toList ++ [dq] ++ "bar".toList ++ [dq] ++ ['>']

/-- Concrete input `<a x="1" x="2">` (15 characters), duplicate names. -/
def dupExample : List Char :=
  "<a x=".toList ++ [dq] ++ "1".toList ++ [dq] ++
  " x=".toList ++ [dq] ++ "2".toList ++ [dq] ++ ['>']

/-- Concrete input `<!-- comment -->` (16 characters). -/
def commentExample : List Char := "<!-- comment -->".toList

/-! ## Basic lemmas about the cursor primitives -/

open HtmlTokenizer

theorem length_le_byteLen (l : List Char) : l.length ≤ byteLen l := by
  induction l with
  | nil => simp [byteLen]
  | cons c tl ih =>
    have h := Char.utf8Size_pos c
    simp only [byteLen, List.foldr_cons, List.length_cons] at ih ⊢
    omega

theorem peek_zero (t : HtmlTokenizer) : peek t 0 = t.input.get? t.position := by
  simp [peek]

theorem drop_cons_of_get_some {α : Type} {l : List α} {n : Nat} {c : α}
    (h : l.get? n = some c) : l.drop n = c :: l.drop (n + 1) := by
  rcases List.get?_eq_some.mp h with ⟨hlt, hget⟩
  rw [List.drop_eq_getElem_cons hlt, ← hget]
  simp [List.get_eq_getElem]

theorem advance_of_get_some {t : HtmlTokenizer} {c : Char}
    (h : t.input.get? t.position = some c) :
    advance t = (some c, ⟨t.input, t.position + 1⟩) := by
  have h1 : t.position < t.input.length := (List.get?_eq_some.mp h).1
  have h2 : t.position < byteLen t.input :=
    lt_of_lt_of_le h1 (length_le_byteLen _)
  simp only [advance, if_pos h2, h]

theorem advance_of_length_le {input : List Char} {pos : Nat}
    (h : input.length ≤ pos) :
    ∃ t', advance ⟨input, pos⟩ = (none, t') := by
  have hg : input.get? pos = none := List.get?_eq_none.mpr h
  by_cases h2 : pos < byteLen input
  · exact ⟨⟨input, pos + 1⟩, by simp only [advance, if_pos h2, hg]⟩
  · exact ⟨⟨input, pos⟩, by simp only [advance, if_neg h2]⟩

theorem skip_whitespaceF_of_peek_none {t : HtmlTokenizer}
    (h : peek t 0 = none) : ∀ f, skip_whitespaceF f t = t := by
  intro f
  cases f <;> simp [skip_whitespaceF, h]

theorem skip_whitespace_of_peek_none {t : HtmlTokenizer}
    (h : peek t 0 = none) : skip_whitespace t = t :=
  skip_whitespaceF_of_peek_none h _

theorem parse_text_loopF_of_peek_none {t : HtmlTokenizer}
    (h : peek t 0 = none) : ∀ f acc, parse_text_loopF f t acc = (acc, t) := by
  intro f acc
  cases f <;> simp [parse_text_loopF, h]

theorem parse_text_loop_of_peek_none {t : HtmlTokenizer}
    (h : peek t 0 = none) : parse_text_loop t = ([], t) :=
  parse_text_loopF_of_peek_none h _ _

theorem parse_text_loopF_extends :
    ∀ (fuel : Nat) (t : HtmlTokenizer) (acc : List Char),
      ∃ rest, (parse_text_loopF fuel t acc).1 = acc ++ rest ∧
        ∀ c ∈ rest, c ≠ '<' := by
  intro fuel
  induction fuel with
  | zero => intro t acc; exact ⟨[], by simp [parse_text_loopF]⟩
  | succ n ih =>
    intro t acc
    rcases hp : peek t 0 with _ | c
    · exact ⟨[], by simp [parse_text_loopF, hp]⟩
    · by_cases hc : c = '<'
      · exact ⟨[], by simp [parse_text_loopF, hp, hc]⟩
      · have ha := advance_of_get_some (t := t) (c := c)
          (by simpa [peek] using hp)
        obtain ⟨rest, h1, h2⟩ := ih ⟨t.input, t.position + 1⟩ (acc ++ [c])
        refine ⟨c :: rest, ?_, ?_⟩
        · simp only [parse_text_loopF, hp, hc, if_false, ha]
          rw [h1]
          simp
        · intro x hx
          rcases List.mem_cons.mp hx with rfl | hx
          · exact hc
          · exact h2 x hx

/-- The divergent state: `peek` sees end of input but `is_eof` is still
false (possible exactly because `is_eof` uses the byte length while the
position counts characters).  From such a state `next_token` never
returns. -/
theorem next_tokenF_stuck {t : HtmlTokenizer} (h1 : peek t 0 = none)
    (h2 : is_eof t = false) : ∀ fuel, next_tokenF fuel t = none := by
  intro fuel
  induction fuel with
  | zero => rfl
  | succ n ih =>
    have hs : skip_whitespace t = t := skip_whitespace_of_peek_none h1
    have hl : parse_text_loop t = ([], t) := parse_text_loop_of_peek_none h1
    simp [next_tokenF, hs, h2, h1, hl, ih]

theorem next_tokenF_none_imp_is_eof :
    ∀ (fuel : Nat) (t t' : HtmlTokenizer),
      next_tokenF fuel t = some (none, t') → is_eof t' = true := by
  intro fuel
  induction fuel with
  | zero =>
    intro t t' h
    exact absurd h (by simp [next_tokenF])
  | succ n ih =>
    intro t t' h
    simp only [next_tokenF] at h
    split at h
    · rename_i he
      obtain ⟨h1, h2⟩ := Prod.mk.injEq .. ▸ Option.some.inj h
      rw [← h2]
      exact he
    · split at h
      · simp at h
      · split at h
        · exact ih _ _ h
        · simp at h

theorem next_tokenF_of_is_eof {t : HtmlTokenizer} (h : is_eof t = true)
    (fuel : Nat) : next_tokenF (fuel + 1) t = some (none, t) := by
  have hb : byteLen t.input ≤ t.position := of_decide_eq_true h
  have hl : t.input.length ≤ t.position :=
    le_trans (length_le_byteLen _) hb
  have hp : peek t 0 = none := by
    rw [peek_zero]
    exact List.get?_eq_none.mpr hl
  have hs : skip_whitespace t = t := skip_whitespace_of_peek_none hp
  simp [next_tokenF, hs, h]

/-- Claim C1 (code bug).  The claim says tokenization always terminates
and the sequence adapter always yields a finite sequence.  On the
one-character input `"é"` (U+00E9, two UTF-8 bytes) the first pull
returns `Text "é"` and leaves the tokenizer at position 1; from there
`next_token` recurses forever between `next_token` and `parse_text`
(fuel is consumed exactly at that recursion, so returning `none` for
every fuel value means the call never returns), and collecting the
iterator therefore never finishes for any fuel. -/
theorem claim_C1 :
    next_tokenF 2 (HtmlTokenizer.new [eAcute]) =
      some (some (.ok (.Text [eAcute])), ⟨[eAcute], 1⟩)
    ∧ (∀ fuel, next_tokenF fuel ⟨[eAcute], 1⟩ = none)
    ∧ (∀ fuel, tokenListF fuel (HtmlTokenizer.new [eAcute]) = none) := by
  have hstuck : ∀ fuel, next_tokenF fuel (⟨[eAcute], 1⟩ : HtmlTokenizer) = none :=
    next_tokenF_stuck (by decide) (by decide)
  refine ⟨by decide, hstuck, ?_⟩
  intro fuel
  match fuel with
  | 0 => rfl
  | 1 => rfl
  | (g + 2) =>
    have h1 : next_tokenF (g + 1) (HtmlTokenizer.new [eAcute]) =
        some (some (.ok (.Text [eAcute])), ⟨[eAcute], 1⟩) := rfl
    simp [tokenListF, h1, hstuck g]

/-- Claim C2 (code bug).  The claim says the position is a character
index that never exceeds the input length in Unicode scalar values and
that `is_eof` is true iff position ≥ that character length.  The code
compares the position with the UTF-8 *byte* length instead: after
tokenizing `"é"` (char length 1) the reachable state has position 1 ≥ 1
yet `is_eof` is false, and on `"<!--é"` (char length 5) the reachable
final position is 6 > 5. -/
theorem claim_C2 :
    next_tokenF 2 (HtmlTokenizer.new [eAcute]) =
      some (some (.ok (.Text [eAcute])), ⟨[eAcute], 1⟩)
    ∧ is_eof ⟨[eAcute], 1⟩ = false
    ∧ List.length [eAcute] ≤ 1
    ∧ next_tokenF 1 (HtmlTokenizer.new ['<', '!', '-', '-', eAcute]) =
        some (some (.error .MalformedComment), ⟨['<', '!', '-', '-', eAcute], 6⟩)
    ∧ List.length ['<', '!', '-', '-', eAcute] = 5 := by
  decide

/-- Claim C3 (code bug).  The claim says every whitespace-only input
yields the empty sequence, the first `next_token` call returning the
end-of-input signal.  U+00A0 (no-break space) is whitespace for Rust's
`char::is_whitespace` but occupies two UTF-8 bytes, so on the input
consisting of that single character the first `next_token` call never
returns (diverges for every fuel) instead of signalling end-of-input,
and the adapter never produces a (finite, empty) sequence. -/
theorem claim_C3 :
    rustIsWhitespace nbsp = true
    ∧ (∀ fuel, next_tokenF fuel (HtmlTokenizer.new [nbsp]) = none)
    ∧ (∀ fuel, tokenListF fuel (HtmlTokenizer.new [nbsp]) = none) := by
  have hstuck : ∀ fuel, next_tokenF fuel (⟨[nbsp], 1⟩ : HtmlTokenizer) = none :=
    next_tokenF_stuck (by decide) (by decide)
  have hfirst : ∀ fuel, next_tokenF fuel (HtmlTokenizer.new [nbsp]) = none := by
    intro fuel
    cases fuel with
    | zero => rfl
    | succ m =>
      have h1 : next_tokenF (m + 1) (HtmlTokenizer.new [nbsp]) =
          next_tokenF m (⟨[nbsp], 1⟩ : HtmlTokenizer) := rfl
      rw [h1, hstuck m]
  refine ⟨by decide, hfirst, ?_⟩
  intro fuel
  cases fuel with
  | zero => rfl
  | succ m => simp [tokenListF, hfirst m]

/-- Claim C10 (confirmed).  Once `next_token` has returned the
end-of-input signal `None` leaving state `t'`, every later call on that
state again returns `None` with the state unchanged: returning `None`
happens only under `is_eof`, and under `is_eof` the whitespace skip is
a no-op, so the call is stable and mutation-free. -/
theorem claim_C10 :
    ∀ (fuel : Nat) (t t' : HtmlTokenizer),
      next_tokenF fuel t = some (none, t') →
      ∀ fuel', next_tokenF (fuel' + 1) t' = some (none, t') := by
  intro fuel t t' h fuel'
  exact next_tokenF_of_is_eof (next_tokenF_none_imp_is_eof fuel t t' h) fuel'

/-- Witness for C10 at the empty input. -/
theorem claim_C10_witness :
    next_tokenF 1 (⟨[], 0⟩ : HtmlTokenizer) = some (none, ⟨[], 0⟩) :=
  claim_C10 1 (HtmlTokenizer.new []) ⟨[], 0⟩ (by decide) 0

/-! ## Shape lemmas: which constructors each scanner can return -/

theorem parse_doctypeF_shape :
    ∀ (fuel : Nat) (t : HtmlTokenizer) (acc : List Char),
      (parse_doctypeF fuel t acc).1 = .error .UnexpectedEOF ∨
      ∃ s, (parse_doctypeF fuel t acc).1 = .ok (.Doctype s) := by
  intro fuel
  induction fuel with
  | zero => intro t acc; left; rfl
  | succ n ih =>
    intro t acc
    rcases hp : peek t 0 with _ | c
    · left; simp [parse_doctypeF, hp]
    · by_cases hc : c = '>'
      · right
        exact ⟨acc, by simp [parse_doctypeF, hp, hc]⟩
      · rcases ha : advance t with ⟨oc, t2⟩
        rcases oc with _ | ch
        · left; simp [parse_doctypeF, hp, hc, ha]
        · simpa [parse_doctypeF, hp, hc, ha] using ih t2 (acc ++ [ch])

theorem parse_commentF_shape :
    ∀ (fuel : Nat) (t : HtmlTokenizer) (acc : List Char) (dash : Nat),
      (parse_commentF fuel t acc dash).1 = .error .MalformedComment ∨
      ∃ s, (parse_commentF fuel t acc dash).1 = .ok (.Comment s) := by
  intro fuel
  induction fuel with
  | zero => intro t acc dash; left; rfl
  | succ n ih =>
    intro t acc dash
    rcases ha : advance t with ⟨oc, t2⟩
    rcases oc with _ | c
    · left; simp [parse_commentF, ha]
    · by_cases hcond : 2 ≤ dash ∧ c = '>'
      · right
        exact ⟨if ['-', '-'].isSuffixOf acc then acc.take (acc.length - 2)
          else acc, by simp [parse_commentF, ha, hcond]⟩
      · simpa [parse_commentF, ha, hcond] using
          ih t2 (acc ++ [c]) (if c = '-' then dash + 1 else 0)

theorem attrQuotedF_shape :
    ∀ (fuel : Nat) (t : HtmlTokenizer) (q : Char) (acc : List Char),
      (attrQuotedF fuel t q acc).1 = .error .InvalidAttribute ∨
      ∃ v, (attrQuotedF fuel t q acc).1 = .ok v := by
  intro fuel
  induction fuel with
  | zero => intro t q acc; left; rfl
  | succ n ih =>
    intro t q acc
    rcases ha : advance t with ⟨oc, t2⟩
    rcases oc with _ | c
    · left; simp [attrQuotedF, ha]
    · by_cases hc : c = q
      · right; exact ⟨acc, by simp [attrQuotedF, ha, hc]⟩
      · simpa [attrQuotedF, ha, hc] using ih t2 q (acc ++ [c])

theorem attrUnquotedF_shape :
    ∀ (fuel : Nat) (t : HtmlTokenizer) (acc : List Char),
      (attrUnquotedF fuel t acc).1 = .error .InvalidAttribute ∨
      ∃ v, (attrUnquotedF fuel t acc).1 = .ok v := by
  intro fuel
  induction fuel with
  | zero => intro t acc; right; exact ⟨acc, rfl⟩
  | succ n ih =>
    intro t acc
    rcases hp : peek t 0 with _ | c
    · right; exact ⟨acc, by simp [attrUnquotedF, hp]⟩
    · by_cases hd : isUnquotedDelim c
      · right; exact ⟨acc, by simp [attrUnquotedF, hp, hd]⟩
      · rcases ha : advance t with ⟨oc, t2⟩
        rcases oc with _ | ch
        · left; simp [attrUnquotedF, hp, hd, ha]
        · simpa [attrUnquotedF, hp, hd, ha] using ih t2 (acc ++ [ch])

theorem parse_attribute_value_shape (t : HtmlTokenizer) :
    (parse_attribute_value t).1 = .error .InvalidAttribute ∨
    ∃ v, (parse_attribute_value t).1 = .ok v := by
  rcases hp : peek t 0 with _ | c
  · simpa [parse_attribute_value, hp] using attrUnquotedF_shape _ t []
  · by_cases hq : c = dq ∨ c = sq
    · rcases ha : advance t with ⟨oc, t2⟩
      rcases oc with _ | q
      · left; simp [parse_attribute_value, hp, hq, ha]
      · simpa [parse_attribute_value, hp, hq, ha] using
          attrQuotedF_shape _ t2 q []
    · simpa [parse_attribute_value, hp, hq] using attrUnquotedF_shape _ t []

theorem parse_attribute_shape (t : HtmlTokenizer) :
    (parse_attribute t).1 = none ∨
    (∃ nv, (parse_attribute t).1 = some (.ok nv)) ∨
    (parse_attribute t).1 = some (.error .InvalidAttribute) := by
  rcases hn : parse_attribute_name t with ⟨o1, t1⟩
  rcases o1 with _ | name
  · left; simp [parse_attribute, hn]
  · by_cases he : peek (skip_whitespace t1) 0 = some '='
    · rcases hv : parse_attribute_value (skip_whitespace (advance (skip_whitespace t1)).2)
        with ⟨rv, t4⟩
      rcases parse_attribute_value_shape
          (skip_whitespace (advance (skip_whitespace t1)).2) with h | ⟨v, h⟩
      · rw [hv] at h
        simp only at h
        subst h
        right; right
        simp [parse_attribute, hn, he, hv]
      · rw [hv] at h
        simp only at h
        subst h
        right; left
        exact ⟨(name, v), by simp [parse_attribute, hn, he, hv]⟩
    · right; left
      exact ⟨(name, []), by simp [parse_attribute, hn, he]⟩

theorem parse_attributesF_shape :
    ∀ (fuel : Nat) (t : HtmlTokenizer) (acc : List (List Char × List Char)),
      (parse_attributesF fuel t acc).1 = .error .InvalidAttribute ∨
      ∃ l, (parse_attributesF fuel t acc).1 = .ok l := by
  intro fuel
  induction fuel with
  | zero => intro t acc; right; exact ⟨acc, rfl⟩
  | succ n ih =>
    intro t acc
    by_cases hgt : peek (skip_whitespace t) 0 = some '>'
    · right; exact ⟨acc, by simp [parse_attributesF, hgt]⟩
    · by_cases hsl : peek (skip_whitespace t) 0 = some '/'
      · right; exact ⟨acc, by simp [parse_attributesF, hgt, hsl]⟩
      · rcases hpa : parse_attribute (skip_whitespace t) with ⟨o, t2⟩
        rcases parse_attribute_shape (skip_whitespace t) with h | ⟨nv, h⟩ | h <;>
          rw [hpa] at h <;> simp only at h <;> subst h
        · right; exact ⟨acc, by simp [parse_attributesF, hgt, hsl, hpa]⟩
        · simpa [parse_attributesF, hgt, hsl, hpa] using ih t2 (acc ++ [nv])
        · left; simp [parse_attributesF, hgt, hsl, hpa]

theorem parse_start_tag_shape (t : HtmlTokenizer) :
    (parse_start_tag t).1 = .error .InvalidTag ∨
    (parse_start_tag t).1 = .error .InvalidAttribute ∨
    ∃ n a b, (parse_start_tag t).1 = .ok (.StartTag n a b) := by
  rcases hn : parse_tag_name t with ⟨o1, t1⟩
  rcases o1 with _ | name
  · left; simp [parse_start_tag, hn]
  · rcases hA : parse_attributes (skip_whitespace t1) with ⟨rA, t3⟩
    rcases parse_attributesF_shape _ (skip_whitespace t1) [] with h | ⟨l, h⟩ <;>
      rw [show parse_attributesF _ (skip_whitespace t1) [] =
          parse_attributes (skip_whitespace t1) from rfl, hA] at h <;>
      simp only at h <;> subst h
    · right; left; simp [parse_start_tag, hn, hA]
    · by_cases hsl : peek (skip_whitespace t3) 0 = some '/'
      · by_cases hgt : peek (advance (skip_whitespace t3)).2 0 = some '>'
        · right; right
          exact ⟨name, l, true, by simp [parse_start_tag, hn, hA, hsl, hgt]⟩
        · left; simp [parse_start_tag, hn, hA, hsl, hgt]
      · by_cases hgt : peek (skip_whitespace t3) 0 = some '>'
        · right; right
          exact ⟨name, l, false, by simp [parse_start_tag, hn, hA, hsl, hgt]⟩
        · left; simp [parse_start_tag, hn, hA, hsl, hgt]

theorem parse_end_tag_shape (t : HtmlTokenizer) :
    (parse_end_tag t).1 = .error .InvalidTag ∨
    ∃ n, (parse_end_tag t).1 = .ok (.EndTag n) := by
  rcases hn : parse_tag_name t with ⟨o1, t1⟩
  rcases o1 with _ | name
  · left; simp [parse_end_tag, hn]
  · by_cases hgt : peek (skip_whitespace t1) 0 = some '>'
    · right; exact ⟨name, by simp [parse_end_tag, hn, hgt]⟩
    · left; simp [parse_end_tag, hn, hgt]

theorem parse_tag_ne_text (t : HtmlTokenizer) (s : List Char) :
    (parse_tag t).1 ≠ .ok (.Text s) := by
  by_cases hb : peek t 0 = some '!'
  · simp only [parse_tag, hb, if_pos]
    by_cases h1 : peek (advance t).2 0 = some '-'
    · by_cases h2 : peek (advance t).2 1 = some '-'
      · simp only [parse_special_tag, h1, h2, if_pos]
        rcases parse_commentF_shape _ (advance_n (advance t).2 2) [] 0
          with h | ⟨cs, h⟩ <;>
          rw [show parse_commentF _ (advance_n (advance t).2 2) [] 0 =
              parse_comment (advance_n (advance t).2 2) from rfl] at h <;>
          simp [parse_comment] at h ⊢ <;> simp [h]
      · simp [parse_special_tag, h1, h2]
    · simp only [parse_special_tag, h1, if_neg, if_false]
      rcases parse_doctypeF_shape _ (advance t).2 [] with h | ⟨ds, h⟩ <;>
        rw [show parse_doctypeF _ (advance t).2 [] =
            parse_doctype (advance t).2 from rfl] at h <;>
        simp [parse_doctype] at h ⊢ <;> simp [h]
  · by_cases hs : peek t 0 = some '/'
    · simp only [parse_tag, hb, hs, if_neg, if_pos, if_false]
      rcases parse_end_tag_shape (advance t).2 with h | ⟨n, h⟩ <;> simp [h]
    · simp only [parse_tag, hb, hs, if_false]
      rcases parse_start_tag_shape t with h | h | ⟨n, a, b, h⟩ <;> simp [h]

/-! ## Text-scanning lemmas -/

theorem parse_text_loop_no_lt (t : HtmlTokenizer) :
    ∀ c ∈ (parse_text_loop t).1, c ≠ '<' := by
  obtain ⟨rest, h1, h2⟩ :=
    parse_text_loopF_extends (t.input.length + 1 - t.position) t []
  intro c hc
  rw [show parse_text_loop t =
      parse_text_loopF (t.input.length + 1 - t.position) t [] from rfl, h1] at hc
  simp only [List.nil_append] at hc
  exact h2 c hc

theorem parse_text_loop_nil {t : HtmlTokenizer}
    (h : (parse_text_loop t).1 = []) :
    peek t 0 = none ∨ peek t 0 = some '<' := by
  rcases hp : peek t 0 with _ | c
  · exact Or.inl rfl
  · by_cases hc : c = '<'
    · right; rw [hc]
    · exfalso
      have hpos : t.position < t.input.length :=
        (List.get?_eq_some.mp (by simpa [peek] using hp)).1
      obtain ⟨k, hk⟩ : ∃ k, t.input.length + 1 - t.position = k + 1 :=
        ⟨t.input.length - t.position, by omega⟩
      have ha := advance_of_get_some (t := t) (c := c)
        (by simpa [peek] using hp)
      rw [show parse_text_loop t =
          parse_text_loopF (t.input.length + 1 - t.position) t [] from rfl,
        hk] at h
      simp only [parse_text_loopF, hp, hc, if_false, ha,
        List.nil_append] at h
      obtain ⟨rest, h1, _⟩ :=
        parse_text_loopF_extends k ⟨t.input, t.position + 1⟩ [c]
      rw [h1] at h
      simp at h

theorem next_tokenF_peek_none {t : HtmlTokenizer} (h : peek t 0 = none) :
    ∀ fuel, next_tokenF fuel t = none ∨
      next_tokenF fuel t = some (none, t) := by
  intro fuel
  induction fuel with
  | zero => exact Or.inl rfl
  | succ n ih =>
    have hs : skip_whitespace t = t := skip_whitespace_of_peek_none h
    have hl : parse_text_loop t = ([], t) := parse_text_loop_of_peek_none h
    by_cases he : is_eof t
    · right; simp [next_tokenF, hs, he]
    · have heq : next_tokenF (n + 1) t = next_tokenF n t := by
        simp [next_tokenF, hs, he, h, hl]
      rw [heq]
      exact ih

/-- Claim C9 (confirmed).  Every `Text` token emitted through
`next_token` has non-empty content not containing `'<'`: `parse_text`
emits `Text` only for a non-empty accumulation, whose loop stops at
`'<'`, and no tag-scanning path ever builds a `Text` token. -/
theorem claim_C9 :
    ∀ (fuel : Nat) (t : HtmlTokenizer) (s : List Char) (t' : HtmlTokenizer),
      next_tokenF fuel t = some (some (.ok (.Text s)), t') →
      s ≠ [] ∧ '<' ∉ s := by
  intro fuel
  induction fuel with
  | zero =>
    intro t s t' h
    exact absurd h (by simp [next_tokenF])
  | succ n ih =>
    intro t s t' h
    simp only [next_tokenF] at h
    split at h
    · simp at h
    · split at h
      · simp only [Option.some.injEq, Prod.mk.injEq] at h
        rcases h with ⟨h1, -⟩
        exact absurd h1 (parse_tag_ne_text _ s)
      · split at h
        · exact ih _ _ _ h
        · rename_i hne
          simp only [Option.some.injEq, Prod.mk.injEq, Except.ok.injEq,
            HtmlToken.Text.injEq] at h
          obtain ⟨h1, -⟩ := h
          subst h1
          refine ⟨hne, fun hmem => ?_⟩
          exact parse_text_loop_no_lt _ '<' hmem rfl

/-- Witness for C9: the single-character input `h`. -/
theorem claim_C9_witness : (['h'] : List Char) ≠ [] ∧ '<' ∉ (['h'] : List Char) :=
  claim_C9 1 (HtmlTokenizer.new ['h']) ['h'] ⟨['h'], 1⟩ (by decide)

/-! ## Characterization of the accumulate-until-delimiter scanners -/

theorem parse_doctypeF_spec :
    ∀ (fuel : Nat) (input : List Char) (pos : Nat) (acc : List Char),
      input.length - pos < fuel →
      (parse_doctypeF fuel ⟨input, pos⟩ acc).1 =
        if '>' ∈ input.drop pos then
          .ok (.Doctype (acc ++ (input.drop pos).takeWhile (fun c => c != '>')))
        else .error .UnexpectedEOF := by
  intro fuel
  induction fuel with
  | zero => intro input pos acc h; exact absurd h (Nat.not_lt_zero _)
  | succ n ih =>
    intro input pos acc h
    rcases hg : input.get? pos with _ | c
    · have hl : input.length ≤ pos := List.get?_eq_none.mp hg
      have hd : input.drop pos = [] := List.drop_eq_nil_of_le hl
      have hp : peek ⟨input, pos⟩ 0 = none := by rw [peek_zero]; exact hg
      simp [parse_doctypeF, hp, hd]
    · have hp : peek ⟨input, pos⟩ 0 = some c := by rw [peek_zero]; exact hg
      have hlt : pos < input.length := (List.get?_eq_some.mp hg).1
      have hd : input.drop pos = c :: input.drop (pos + 1) :=
        drop_cons_of_get_some hg
      by_cases hc : c = '>'
      · subst hc
        simp [parse_doctypeF, hp, hd, List.takeWhile_cons]
      · have ha := advance_of_get_some (t := ⟨input, pos⟩) (c := c)
          (by simpa using hg)
        have hrec := ih input (pos + 1) (acc ++ [c]) (by omega)
        simp only [parse_doctypeF, hp, if_neg hc, ha, hrec, hd,
          List.takeWhile_cons, List.mem_cons]
        have hcb : (c != '>') = true := by simpa using hc
        have hmc : ¬ ('>' = c) := fun hx => hc hx.symm
        by_cases hm : '>' ∈ input.drop (pos + 1) <;>
          simp [hm, hmc, hcb, List.append_assoc]

theorem parse_doctype_spec (input : List Char) (pos : Nat) :
    (parse_doctype ⟨input, pos⟩).1 =
      if '>' ∈ input.drop pos then
        .ok (.Doctype ((input.drop pos).takeWhile (fun c => c != '>')))
      else .error .UnexpectedEOF := by
  by_cases h : pos ≤ input.length
  · have := parse_doctypeF_spec (input.length + 1 - pos) input pos []
      (by omega)
    simpa [parse_doctype] using this
  · have hf : input.length + 1 - pos = 0 := by omega
    have hd : input.drop pos = [] := List.drop_eq_nil_of_le (by omega)
    simp [parse_doctype, hf, parse_doctypeF, hd]

theorem parse_commentF_spec :
    ∀ (fuel : Nat) (input : List Char) (pos : Nat) (acc : List Char)
      (dash : Nat),
      input.length - pos < fuel →
      (parse_commentF fuel ⟨input, pos⟩ acc dash).1 =
        commentResult (commentScanSpec (input.drop pos) acc dash) := by
  intro fuel
  induction fuel with
  | zero => intro input pos acc dash h; exact absurd h (Nat.not_lt_zero _)
  | succ n ih =>
    intro input pos acc dash h
    rcases hg : input.get? pos with _ | c
    · have hl : input.length ≤ pos := List.get?_eq_none.mp hg
      have hd : input.drop pos = [] := List.drop_eq_nil_of_le hl
      obtain ⟨t', ha⟩ := advance_of_length_le hl
      simp [parse_commentF, ha, hd, commentScanSpec, commentResult]
    · have hlt : pos < input.length := (List.get?_eq_some.mp hg).1
      have hd : input.drop pos = c :: input.drop (pos + 1) :=
        drop_cons_of_get_some hg
      have ha := advance_of_get_some (t := ⟨input, pos⟩) (c := c)
        (by simpa using hg)
      by_cases hcond : 2 ≤ dash ∧ c = '>'
      · simp [parse_commentF, ha, hcond, hd, commentScanSpec, commentResult]
      · have hrec := ih input (pos + 1) (acc ++ [c])
          (if c = '-' then dash + 1 else 0) (by omega)
        simp only [parse_commentF, ha, if_neg hcond, hrec, hd]
        rw [show commentScanSpec (c :: input.drop (pos + 1)) acc dash =
          commentScanSpec (input.drop (pos + 1)) (acc ++ [c])
            (if c = '-' then dash + 1 else 0) from by
          simp [commentScanSpec, hcond]]

theorem parse_comment_spec (input : List Char) (pos : Nat) :
    (parse_comment ⟨input, pos⟩).1 =
      commentResult (commentScanSpec (input.drop pos) [] 0) := by
  by_cases h : pos ≤ input.length
  · have := parse_commentF_spec (input.length + 1 - pos) input pos [] 0
      (by omega)
    simpa [parse_comment] using this
  · have hf : input.length + 1 - pos = 0 := by omega
    have hd : input.drop pos = [] := List.drop_eq_nil_of_le (by omega)
    simp [parse_comment, hf, parse_commentF, hd, commentScanSpec,
      commentResult]

theorem attrQuotedF_spec :
    ∀ (fuel : Nat) (input : List Char) (pos : Nat) (q : Char)
      (acc : List Char),
      input.length - pos < fuel →
      (attrQuotedF fuel ⟨input, pos⟩ q acc).1 =
        if q ∈ input.drop pos then
          .ok (acc ++ (input.drop pos).takeWhile (fun c => c != q))
        else .error .InvalidAttribute := by
  intro fuel
  induction fuel with
  | zero => intro input pos q acc h; exact absurd h (Nat.not_lt_zero _)
  | succ n ih =>
    intro input pos q acc h
    rcases hg : input.get? pos with _ | c
    · have hl : input.length ≤ pos := List.get?_eq_none.mp hg
      have hd : input.drop pos = [] := List.drop_eq_nil_of_le hl
      obtain ⟨t', ha⟩ := advance_of_length_le hl
      simp [attrQuotedF, ha, hd]
    · have hlt : pos < input.length := (List.get?_eq_some.mp hg).1
      have hd : input.drop pos = c :: input.drop (pos + 1) :=
        drop_cons_of_get_some hg
      have ha := advance_of_get_some (t := ⟨input, pos⟩) (c := c)
        (by simpa using hg)
      by_cases hc : c = q
      · subst hc
        simp [attrQuotedF, ha, hd, List.takeWhile_cons]
      · have hrec := ih input (pos + 1) q (acc ++ [c]) (by omega)
        simp only [attrQuotedF, ha, if_neg hc, hrec, hd,
          List.takeWhile_cons, List.mem_cons]
        have hcb : (c != q) = true := by simpa using hc
        have hmc : ¬ (q = c) := fun hx => hc hx.symm
        by_cases hm : q ∈ input.drop (pos + 1) <;>
          simp [hm, hmc, hcb, List.append_assoc]

theorem attrUnquotedF_spec :
    ∀ (fuel : Nat) (input : List Char) (pos : Nat) (acc : List Char),
      input.length - pos < fuel →
      (attrUnquotedF fuel ⟨input, pos⟩ acc).1 =
        .ok (acc ++ (input.drop pos).takeWhile (fun c => !(isUnquotedDelim c))) := by
  intro fuel
  induction fuel with
  | zero => intro input pos acc h; exact absurd h (Nat.not_lt_zero _)
  | succ n ih =>
    intro input pos acc h
    rcases hg : input.get? pos with _ | c
    · have hl : input.length ≤ pos := List.get?_eq_none.mp hg
      have hd : input.drop pos = [] := List.drop_eq_nil_of_le hl
      have hp : peek ⟨input, pos⟩ 0 = none := by rw [peek_zero]; exact hg
      simp [attrUnquotedF, hp, hd]
    · have hp : peek ⟨input, pos⟩ 0 = some c := by rw [peek_zero]; exact hg
      have hlt : pos < input.length := (List.get?_eq_some.mp hg).1
      have hd : input.drop pos = c :: input.drop (pos + 1) :=
        drop_cons_of_get_some hg
      by_cases hdel : isUnquotedDelim c
      · simp [attrUnquotedF, hp, hdel, hd, List.takeWhile_cons]
      · have ha := advance_of_get_some (t := ⟨input, pos⟩) (c := c)
          (by simpa using hg)
        have hrec := ih input (pos + 1) (acc ++ [c]) (by omega)
        simp [attrUnquotedF, hp, hdel, ha, hrec, hd, List.takeWhile_cons,
          List.append_assoc]

theorem attrUnquoted_run_spec (input : List Char) (pos : Nat) :
    (attrUnquotedF (input.length + 1 - pos) ⟨input, pos⟩ []).1 =
      .ok ((input.drop pos).takeWhile (fun c => !(isUnquotedDelim c))) := by
  by_cases h : pos ≤ input.length
  · simpa using attrUnquotedF_spec (input.length + 1 - pos) input pos []
      (by omega)
  · have hf : input.length + 1 - pos = 0 := by omega
    have hd : input.drop pos = [] := List.drop_eq_nil_of_le (by omega)
    simp [hf, attrUnquotedF, hd]

theorem parse_attribute_value_quoted (input : List Char) (pos : Nat)
    (q : Char) (hg : input.get? pos = some q) (hq : q = dq ∨ q = sq) :
    (parse_attribute_value ⟨input, pos⟩).1 =
      if q ∈ input.drop (pos + 1) then
        .ok ((input.drop (pos + 1)).takeWhile (fun c => c != q))
      else .error .InvalidAttribute := by
  have hp : peek ⟨input, pos⟩ 0 = some q := by rw [peek_zero]; exact hg
  have ha := advance_of_get_some (t := ⟨input, pos⟩) (c := q)
    (by simpa using hg)
  simp only [parse_attribute_value, hp, if_pos hq, ha]
  by_cases h : pos + 1 ≤ input.length
  · have := attrQuotedF_spec (input.length + 1 - (pos + 1)) input (pos + 1)
      q [] (by omega)
    simpa using this
  · have hf : input.length + 1 - (pos + 1) = 0 := by omega
    have hd : input.drop (pos + 1) = [] := List.drop_eq_nil_of_le (by omega)
    simp [hf, attrQuotedF, hd]

theorem parse_attribute_value_unquoted (t : HtmlTokenizer)
    (h1 : peek t 0 ≠ some dq) (h2 : peek t 0 ≠ some sq) :
    (parse_attribute_value t).1 =
      .ok ((t.input.drop t.position).takeWhile (fun c => !(isUnquotedDelim c))) := by
  obtain ⟨input, pos⟩ := t
  rcases hp : peek ⟨input, pos⟩ 0 with _ | c
  · simp only [parse_attribute_value, hp]
    simpa using attrUnquoted_run_spec input pos
  · have hc : ¬ (c = dq ∨ c = sq) := by
      rintro (rfl | rfl)
      · exact h1 hp
      · exact h2 hp
    simp only [parse_attribute_value, hp, if_neg hc]
    simpa using attrUnquoted_run_spec input pos

/-! ## The claim theorems C4-C8 -/

/-- Claim C4 (confirmed).  After `<!`: a single `-` not followed by a
second `-` is `MalformedComment`; the comment body scan is exactly the
spec's scan (accumulate, track trailing dashes, stop at the first `>`
with dash count ≥ 2, strip a trailing `--`, `MalformedComment` on
exhaustion, including for every input whose body never qualifies); and
`<!-- comment -->` tokenizes to `Comment " comment "`. -/
theorem claim_C4 :
    (∀ t : HtmlTokenizer, peek t 0 = some '-' → peek t 1 ≠ some '-' →
      (parse_special_tag t).1 = .error .MalformedComment)
    ∧ next_tokenF 1 (HtmlTokenizer.new commentExample) =
        some (some (.ok (.Comment " comment ".toList)), ⟨commentExample, 16⟩)
    ∧ (∀ (input : List Char) (pos : Nat),
        (parse_comment ⟨input, pos⟩).1 =
          commentResult (commentScanSpec (input.drop pos) [] 0)) := by
  refine ⟨?_, by decide, parse_comment_spec⟩
  intro t h1 h2
  simp [parse_special_tag, h1, h2]

/-- Witness for C4: `<!` followed by `-x`. -/
theorem claim_C4_witness :
    (parse_special_tag ⟨['-', 'x'], 0⟩).1 = .error .MalformedComment :=
  claim_C4.1 ⟨['-', 'x'], 0⟩ (by decide) (by decide)

/-- Claim C5 (confirmed).  `<!` not followed by `-` always dispatches to
doctype scanning; the doctype body is the remaining characters up to the
first `>` (consumed and excluded, with no validation of the word
DOCTYPE), `UnexpectedEOF` when the input is exhausted first; and no
other scanning operation ever returns `UnexpectedEOF`. -/
theorem claim_C5 :
    (∀ t : HtmlTokenizer, peek t 0 ≠ some '-' →
      parse_special_tag t = parse_doctype t)
    ∧ (∀ (input : List Char) (pos : Nat),
        (parse_doctype ⟨input, pos⟩).1 =
          if '>' ∈ input.drop pos then
            .ok (.Doctype ((input.drop pos).takeWhile (fun c => c != '>')))
          else .error .UnexpectedEOF)
    ∧ (∀ t : HtmlTokenizer, (parse_comment t).1 ≠ .error .UnexpectedEOF)
    ∧ (∀ t : HtmlTokenizer, (parse_start_tag t).1 ≠ .error .UnexpectedEOF)
    ∧ (∀ t : HtmlTokenizer, (parse_end_tag t).1 ≠ .error .UnexpectedEOF)
    ∧ (∀ t : HtmlTokenizer,
        (parse_attribute_value t).1 ≠ .error .UnexpectedEOF)
    ∧ (∀ t : HtmlTokenizer,
        (parse_attribute t).1 ≠ some (.error .UnexpectedEOF))
    ∧ (∀ t : HtmlTokenizer, (parse_attributes t).1 ≠ .error .UnexpectedEOF)
    ∧ (∀ (fuel : Nat) (t : HtmlTokenizer)
        (r : Except TokenizeError HtmlToken) (t' : HtmlTokenizer),
        peek t 0 ≠ some '<' → parse_textF fuel t = some (some r, t') →
        r ≠ .error .UnexpectedEOF) := by
  refine ⟨?_, parse_doctype_spec, ?_, ?_, ?_, ?_, ?_, ?_, ?_⟩
  · intro t h
    simp [parse_special_tag, h]
  · intro t h
    rcases parse_commentF_shape (t.input.length + 1 - t.position) t [] 0
      with hs | ⟨cs, hs⟩ <;>
      rw [show (parse_comment t).1 =
        (parse_commentF (t.input.length + 1 - t.position) t [] 0).1
        from rfl, hs] at h <;> simp at h
  · intro t h
    rcases parse_start_tag_shape t with hs | hs | ⟨n, a, b, hs⟩ <;>
      rw [hs] at h <;> simp at h
  · intro t h
    rcases parse_end_tag_shape t with hs | ⟨n, hs⟩ <;>
      rw [hs] at h <;> simp at h
  · intro t h
    rcases parse_attribute_value_shape t with hs | ⟨v, hs⟩ <;>
      rw [hs] at h <;> simp at h
  · intro t h
    rcases parse_attribute_shape t with hs | ⟨nv, hs⟩ | hs <;>
      rw [hs] at h <;> simp at h
  · intro t h
    rcases parse_attributesF_shape (t.input.length + 1 - t.position) t []
      with hs | ⟨l, hs⟩ <;>
      rw [show (parse_attributes t).1 =
        (parse_attributesF (t.input.length + 1 - t.position) t []).1
        from rfl, hs] at h <;> simp at h
  · intro fuel t r t' hlt h
    simp only [parse_textF] at h
    by_cases hn : (parse_text_loop t).1 = []
    · rcases parse_text_loop_nil hn with hp | hp
      · have hl0 : parse_text_loop t = ([], t) :=
          parse_text_loop_of_peek_none hp
        have h21 : (parse_text_loop t).2 = t := by rw [hl0]
        rw [if_pos hn, h21] at h
        rcases next_tokenF_peek_none hp fuel with h2 | h2 <;>
          rw [h2] at h <;> simp at h
      · exact absurd hp hlt
    · rw [if_neg hn] at h
      simp only [Option.some.injEq, Prod.mk.injEq] at h
      obtain ⟨h1, -⟩ := h
      intro hr
      rw [hr] at h1
      simp at h1

/-- Witness for C5: `<!` followed by `D>`. -/
theorem claim_C5_witness :
    parse_special_tag ⟨['D', '>'], 0⟩ = parse_doctype ⟨['D', '>'], 0⟩ :=
  claim_C5.1 ⟨['D', '>'], 0⟩ (by decide)

/-- Claim C6 (confirmed).  Attributes are returned exactly in encounter
order with duplicates preserved: the attribute loop appends each
successfully parsed attribute at the end of the accumulator, and the
two concrete tags illustrate order and duplicate preservation. -/
theorem claim_C6 :
    next_tokenF 1 (HtmlTokenizer.new divExample) =
      some (some (.ok (.StartTag "div".toList
        [("class".toList, "foo".toList), ("id".toList, "bar".toList)]
        false)), ⟨divExample, 26⟩)
    ∧ next_tokenF 1 (HtmlTokenizer.new dupExample) =
        some (some (.ok (.StartTag ['a'] [(['x'], ['1']), (['x'], ['2'])]
          false)), ⟨dupExample, 15⟩)
    ∧ (∀ (fuel : Nat) (t : HtmlTokenizer)
        (acc : List (List Char × List Char)) (a : List Char × List Char)
        (t2 : HtmlTokenizer),
        peek (skip_whitespace t) 0 ≠ some '>' →
        peek (skip_whitespace t) 0 ≠ some '/' →
        parse_attribute (skip_whitespace t) = (some (.ok a), t2) →
        parse_attributesF (fuel + 1) t acc =
          parse_attributesF fuel t2 (acc ++ [a])) := by
  refine ⟨by decide, by decide, ?_⟩
  intro fuel t acc a t2 h1 h2 h3
  simp [parse_attributesF, h1, h2, h3]

/-- Witness for C6: one attribute `x` before `>`. -/
theorem claim_C6_witness :
    parse_attributesF 6 ⟨['x', '>'], 0⟩ [] =
      parse_attributesF 5 ⟨['x', '>'], 1⟩ [(['x'], [])] :=
  claim_C6.2.2 5 ⟨['x', '>'], 0⟩ [] (['x'], []) ⟨['x', '>'], 1⟩
    (by decide) (by decide) (by decide)

/-- Claim C7 (confirmed).  Attribute-value scanning fails with
`InvalidAttribute` exactly when a quoted value reaches end-of-input
before its closing quote; a quoted value is the run of characters up to
the first matching quote (so it may contain any other character,
including the other quote style and `>`); unquoted values always
succeed, ending at whitespace, `>`, `/` or end-of-input; and an
attribute without `=` gets the empty value. -/
theorem claim_C7 :
    (∀ (input : List Char) (pos : Nat) (q : Char),
      input.get? pos = some q → q = dq ∨ q = sq →
      (((parse_attribute_value ⟨input, pos⟩).1 = .error .InvalidAttribute ↔
          q ∉ input.drop (pos + 1))
        ∧ (q ∈ input.drop (pos + 1) →
            (parse_attribute_value ⟨input, pos⟩).1 =
              .ok ((input.drop (pos + 1)).takeWhile (fun c => c != q)))))
    ∧ (∀ t : HtmlTokenizer, peek t 0 ≠ some dq → peek t 0 ≠ some sq →
        (parse_attribute_value t).1 =
          .ok ((t.input.drop t.position).takeWhile
            (fun c => !(isUnquotedDelim c))))
    ∧ (∀ (t : HtmlTokenizer) (name : List Char) (t1 : HtmlTokenizer),
        parse_attribute_name t = (some name, t1) →
        peek (skip_whitespace t1) 0 ≠ some '=' →
        parse_attribute t = (some (.ok (name, [])), skip_whitespace t1)) := by
  refine ⟨?_, parse_attribute_value_unquoted, ?_⟩
  · intro input pos q hg hq
    have hch := parse_attribute_value_quoted input pos q hg hq
    by_cases hm : q ∈ input.drop (pos + 1)
    · rw [hch, if_pos hm]
      refine ⟨?_, fun _ => rfl⟩
      constructor
      · intro h; simp at h
      · intro h; exact absurd hm h
    · rw [hch, if_neg hm]
      exact ⟨⟨fun _ => hm, fun _ => rfl⟩, fun h => absurd h hm⟩
  · intro t name t1 hn hne
    simp [parse_attribute, hn, hne]

/-- Witness for C7: the quoted value `"a"`. -/
theorem claim_C7_witness :
    (((parse_attribute_value ⟨[dq, 'a', dq], 0⟩).1 =
        .error .InvalidAttribute ↔ dq ∉ List.drop (0 + 1) [dq, 'a', dq])
      ∧ (dq ∈ List.drop (0 + 1) [dq, 'a', dq] →
          (parse_attribute_value ⟨[dq, 'a', dq], 0⟩).1 =
            .ok ((List.drop (0 + 1) [dq, 'a', dq]).takeWhile
              (fun c => c != dq)))) :=
  claim_C7.1 [dq, 'a', dq] 0 dq (by decide) (Or.inl rfl)

/-- Claim C8 (confirmed).  The sequence adapter wraps a fresh tokenizer
over the same input at position zero, so it is independent of the
position of the tokenizer it was created from, and two runs over the
same input produce identical sequences (everything is pure). -/
theorem claim_C8 :
    (∀ (input : List Char) (p : Nat),
      HtmlTokenizer.iter ⟨input, p⟩ = ⟨HtmlTokenizer.new input⟩)
    ∧ (∀ (input : List Char) (p1 p2 fuel : Nat),
        iterTokenListF fuel (HtmlTokenizer.iter ⟨input, p1⟩) =
          iterTokenListF fuel (HtmlTokenizer.iter ⟨input, p2⟩))
    ∧ (∀ (t : HtmlTokenizer) (fuel : Nat),
        iterTokenListF fuel (HtmlTokenizer.iter t) =
          tokenListF fuel (HtmlTokenizer.new t.input)) :=
  ⟨fun _ _ => rfl, fun _ _ _ _ => rfl, fun _ _ => rfl⟩

end MochiBrowser
